import Mathlib

/-
Verification of the SKOS concept URI autonumbering rewrite implemented by
`convert-skos-concept-to-autonumber.py` (and its near-duplicate
`convert_skos_concept_to_autonumber.py`).

Modelling decisions, all taken from the Python source:
  * RDF terms (rdflib `URIRef`, `Literal`, `BNode`) are all `str` subclasses in
    rdflib; we model a term as a constructor tag plus its string form
    (`str(term)`).  Literals are modelled by their lexical form.
  * The rdflib `Graph` is a set of triples (adding an already-present triple is
    a no-op, `len` counts distinct triples); we model it as a `Finset Triple`.
  * `URI_dict` is a Python dict from strings to terms, built only by guarded
    `update` calls; we model it as an association list with first-match lookup.
  * `id_iter = iter(range(lo, hi))` yields `lo, lo+1, ...`; `next` past `hi-1`
    raises `StopIteration`, which is uncaught and aborts the script, so the
    stepping functions return `Option`.
  * The script's `for subj, pred, obj in graph` loop mutates the graph while
    iterating.  Following the enumeration the spec describes, the loop is
    modelled as iterating over a fixed enumeration (a duplicate-free list) of
    the parsed input triples while membership tests and remove/add act on the
    evolving store.
  * The configuration constants (`base_URI`, `autonumber_range`) are gathered
    in a `Config` record; the script's literal values form `defaultConfig`.
    File parsing and serialization are external collaborators and out of
    scope; `convert` returns the graph handed to the serializer, `none`
    meaning the run aborted with no output written.
-/

/-- An RDF term as the scripts see it: rdflib's `URIRef`, `Literal` and
`BNode` are all `str` subclasses, so each carries its string form
(for a literal: its lexical form, which is what `str` returns). -/
inductive Node where
  | uri (s : String)
  | lit (s : String)
  | bnode (s : String)
deriving DecidableEq, Repr

/-- The string form `str(term)` of an RDF term. -/
def Node.pyStr : Node → String
  | .uri s => s
  | .lit s => s
  | .bnode s => s

/-- An RDF triple `(subject, predicate, object)`.  Identity is purely
structural (three-field equality), matching rdflib. -/
structure Triple where
  s : Node
  p : Node
  o : Node
deriving DecidableEq, Repr

/-- `RDF.type` from `rdflib.namespace`. -/
def rdfType : Node := Node.uri "http://www.w3.org/1999/02/22-rdf-syntax-ns#type"

/-- `SKOS.Concept` from `rdflib.namespace`. -/
def skosConcept : Node := Node.uri "http://www.w3.org/2004/02/skos/core#Concept"

/-- The script's configuration block: `base_URI` and
`autonumber_range = range(lo, hi)`.  The source marks these values as
"Change these values according to your needs". -/
structure Config where
  baseURI : String
  lo : Nat
  hi : Nat
deriving DecidableEq, Repr

/-- The literal configuration values of both scripts. -/
def defaultConfig : Config :=
  { baseURI := "https://vrouwenthesaurus.nl/id/", lo := 1000000, hi := 9999999 }

/-- Python's substring test `needle in hay` on strings (rdflib terms are
`str` subclasses, so `base_URI in subj` is this test on `str(subj)`). -/
def pyIn (needle hay : String) : Bool :=
  decide (needle.data <:+: hay.data)

/-- The rename map `URI_dict`: a string-keyed dictionary of terms. -/
abbrev RenameMap := List (String × Node)

/-- Python `d.get(k, dflt)`. -/
def dictGet (d : RenameMap) (k : String) (dflt : Node) : Node :=
  (List.lookup k d).getD dflt

/-- Python `d.update({k: v})`: overwrite in place if the key is present,
otherwise append the new binding. -/
def dictSet (d : RenameMap) (k : String) (v : Node) : RenameMap :=
  if (List.lookup k d).isSome then
    d.map (fun q => if q.1 = k then (k, v) else q)
  else
    d ++ [(k, v)]

/-- The freshly minted URI `URIRef(base_URI + str(n))` for identifier `n`. -/
def mint (cfg : Config) (n : Nat) : Node :=
  Node.uri (cfg.baseURI ++ Nat.repr n)

/-- `next(id_iter)` for `id_iter = iter(range(lo, hi))` whose internal state
is the next candidate `c`: yields `c` while `c < hi`, raises `StopIteration`
(modelled as `none`) once the range is exhausted. -/
def allocNext (cfg : Config) (c : Nat) : Option Nat :=
  if c < cfg.hi then some c else none

/-- The three-part condition guarding each `URI_dict.update` in the loop body:
`base_URI in term and str(term) not in URI_dict.keys() and
(URIRef(str(term)), RDF.type, SKOS.Concept) in graph`, evaluated against the
current graph `g` and current dictionary `d`. -/
def conceptCheck (cfg : Config) (g : Finset Triple) (d : RenameMap) (x : Node) : Bool :=
  pyIn cfg.baseURI x.pyStr
    && !(List.lookup x.pyStr d).isSome
    && decide (Triple.mk (Node.uri x.pyStr) rdfType skosConcept ∈ g)

/-- The loop state: the evolving graph, `URI_dict`, the iterator state of
`id_iter`, and (as a specification-only trace) the list of triples passed to
`graph.add`, in order. -/
structure St where
  g : Finset Triple
  dict : RenameMap
  ctr : Nat
  emitted : List Triple
deriving DecidableEq

/-- One guarded assignment block of the loop body:
`if <conceptCheck x>: URI_dict.update({str(x): URIRef(base_URI + str(next(id_iter)))})`,
acting on the pair (dictionary, iterator state).  `none` models an uncaught
`StopIteration` from `next`. -/
def assignIfConcept (cfg : Config) (g : Finset Triple) (x : Node)
    (dc : RenameMap × Nat) : Option (RenameMap × Nat) :=
  if conceptCheck cfg g dc.1 x then
    match allocNext cfg dc.2 with
    | none => none
    | some n => some (dictSet dc.1 x.pyStr (mint cfg n), dc.2 + 1)
  else
    some dc

/-- The triple passed to `graph.add`:
`(URI_dict.get(str(subj), subj), pred, URI_dict.get(str(obj), obj))`. -/
def emit (d : RenameMap) (t : Triple) : Triple :=
  Triple.mk (dictGet d t.s.pyStr t.s) t.p (dictGet d t.o.pyStr t.o)

/-- One iteration of the loop of `convert-skos-concept-to-autonumber.py`
(lines 35-47): the subject check, the object check, then
`graph.remove((subj, pred, obj))` followed by `graph.add(...)`. -/
def processTriple (cfg : Config) (t : Triple) (st : St) : Option St :=
  match assignIfConcept cfg st.g t.s (st.dict, st.ctr) with
  | none => none
  | some dc1 =>
    match assignIfConcept cfg st.g t.o dc1 with
    | none => none
    | some dc2 =>
      some { g := insert (emit dc2.1 t) (st.g.erase t)
           , dict := dc2.1
           , ctr := dc2.2
           , emitted := st.emitted ++ [emit dc2.1 t] }

/-- The whole `for subj, pred, obj in graph:` loop over the enumeration
`ts` of the parsed triples. -/
def processAll (cfg : Config) : List Triple → St → Option St
  | [], st => some st
  | t :: ts, st =>
    match processTriple cfg t st with
    | none => none
    | some st' => processAll cfg ts st'

/-- The state just after `graph.parse(...)`: the parsed triples as a store,
an empty `URI_dict`, and `id_iter` about to yield `lo`. -/
def initSt (cfg : Config) (ts : List Triple) : St :=
  { g := ts.toFinset, dict := [], ctr := cfg.lo, emitted := [] }

/-- The whole run of `convert-skos-concept-to-autonumber.py` after parsing:
the loop, then `assert(len(graph) == old_g_length)`; the result is the graph
handed to `graph.serialize`, `none` meaning the script aborted with an
uncaught exception and no output file was written. -/
def convert (cfg : Config) (ts : List Triple) : Option (Finset Triple) :=
  match processAll cfg ts (initSt cfg ts) with
  | none => none
  | some st => if st.g.card = ts.toFinset.card then some st.g else none

/-- The subject condition of `convert_skos_concept_to_autonumber.py` line 41.
In that file the parenthesis closes early, so Python evaluates
`(BASE_URI in subj and str_subj not in uri_dict.keys() and URIRef(str_subj),
RDF.type, SKOS.Concept) in graph`: the tuple's first component is
`URIRef(str_subj)` when both boolean conjuncts hold and the Python value
`False` otherwise.  A triple whose subject is the non-term `False` can never
be in a graph of RDF terms, so the `none` branch tests to `false`. -/
def subjCheckU (cfg : Config) (g : Finset Triple) (d : RenameMap) (x : Node) : Bool :=
  match (if pyIn cfg.baseURI x.pyStr && !(List.lookup x.pyStr d).isSome
         then some (Node.uri x.pyStr) else none) with
  | some u => decide (Triple.mk u rdfType skosConcept ∈ g)
  | none => false

/-- One iteration of the loop of `convert_skos_concept_to_autonumber.py`
(lines 37-51): identical to `processTriple` except that the subject guard is
the tuple-shaped condition `subjCheckU` (the precomputed `str_subj`/`str_obj`
locals are definitionally `str(subj)`/`str(obj)`). -/
def processTripleU (cfg : Config) (t : Triple) (st : St) : Option St :=
  match (if subjCheckU cfg st.g st.dict t.s then
           match allocNext cfg st.ctr with
           | none => none
           | some n => some (dictSet st.dict t.s.pyStr (mint cfg n), st.ctr + 1)
         else some (st.dict, st.ctr)) with
  | none => none
  | some dc1 =>
    match assignIfConcept cfg st.g t.o dc1 with
    | none => none
    | some dc2 =>
      some { g := insert (emit dc2.1 t) (st.g.erase t)
           , dict := dc2.1
           , ctr := dc2.2
           , emitted := st.emitted ++ [emit dc2.1 t] }

/-- The loop of the underscore variant. -/
def processAllU (cfg : Config) : List Triple → St → Option St
  | [], st => some st
  | t :: ts, st =>
    match processTripleU cfg t st with
    | none => none
    | some st' => processAllU cfg ts st'

/-- The whole run of the underscore variant. -/
def convertU (cfg : Config) (ts : List Triple) : Option (Finset Triple) :=
  match processAllU cfg ts (initSt cfg ts) with
  | none => none
  | some st => if st.g.card = ts.toFinset.card then some st.g else none

/-- The distinct eligible concept URI strings of the input enumeration:
strings `c` containing the base namespace such that the input holds the
type-assertion triple `(URIRef(c), RDF.type, SKOS.Concept)`. -/
def conceptKeys (cfg : Config) (ts : List Triple) : Finset String :=
  (ts.filterMap (fun t =>
    match t.s with
    | Node.uri c =>
      if t.p = rdfType ∧ t.o = skosConcept ∧ pyIn cfg.baseURI c = true then some c else none
    | _ => none)).toFinset

/-! Injectivity of the decimal representation `Nat.repr` used to mint new
URIs: `Nat.repr n = (Nat.toDigitsCore 10 (n+1) n []).asString`. -/

/-- Decimal evaluation of a most-significant-first digit string, the inverse
reading of `Nat.toDigitsCore`. -/
def digitsVal (l : List Char) : Nat :=
  l.foldl (fun a c => 10 * a + (c.toNat - 48)) 0

theorem digitsVal_append_singleton (xs : List Char) (c : Char) :
    digitsVal (xs ++ [c]) = 10 * digitsVal xs + (c.toNat - 48) := by
  simp [digitsVal, List.foldl_append]

theorem toDigitsCore_append (b : Nat) :
    ∀ (fuel n : Nat) (ds : List Char),
      Nat.toDigitsCore b fuel n ds = Nat.toDigitsCore b fuel n [] ++ ds := by
  intro fuel
  induction fuel with
  | zero => intro n ds; simp [Nat.toDigitsCore]
  | succ f ih =>
    intro n ds
    simp only [Nat.toDigitsCore]
    by_cases h : n / b = 0
    · simp [h]
    · simp only [h, if_false]
      rw [ih (n / b) (Nat.digitChar (n % b) :: ds), ih (n / b) [Nat.digitChar (n % b)]]
      simp

theorem digitChar_val : ∀ m : Nat, m < 10 → (Nat.digitChar m).toNat - 48 = m := by
  decide

theorem digitsVal_toDigitsCore :
    ∀ (fuel n : Nat), n < fuel → digitsVal (Nat.toDigitsCore 10 fuel n []) = n := by
  intro fuel
  induction fuel with
  | zero => intro n h; omega
  | succ f ih =>
    intro n h
    simp only [Nat.toDigitsCore]
    by_cases hdiv : n / 10 = 0
    · have hn : n < 10 := by omega
      simp only [hdiv, if_true]
      have : digitsVal [Nat.digitChar (n % 10)] = (Nat.digitChar (n % 10)).toNat - 48 := by
        simp [digitsVal]
      rw [this, digitChar_val (n % 10) (Nat.mod_lt n (by omega))]
      omega
    · have hpos : 0 < n := by
        rcases Nat.eq_zero_or_pos n with h0 | h0
        · subst h0; simp at hdiv
        · exact h0
      have hlt : n / 10 < n := Nat.div_lt_self hpos (by omega)
      simp only [hdiv, if_false]
      rw [toDigitsCore_append 10 f (n / 10) [Nat.digitChar (n % 10)]]
      rw [digitsVal_append_singleton]
      rw [ih (n / 10) (by omega)]
      rw [digitChar_val (n % 10) (Nat.mod_lt n (by omega))]
      omega

theorem Nat_repr_injective {m n : Nat} (h : Nat.repr m = Nat.repr n) : m = n := by
  have h2 : Nat.toDigits 10 m = Nat.toDigits 10 n := congrArg String.data h
  have hm := digitsVal_toDigitsCore (m + 1) m (Nat.lt_succ_self m)
  have hn := digitsVal_toDigitsCore (n + 1) n (Nat.lt_succ_self n)
  unfold Nat.toDigits at h2
  rw [← hm, ← hn, h2]

theorem mint_injective (cfg : Config) {a b : Nat} (h : mint cfg a = mint cfg b) : a = b := by
  have h1 : cfg.baseURI ++ Nat.repr a = cfg.baseURI ++ Nat.repr b := by
    simpa [mint] using h
  have h2 : (cfg.baseURI ++ Nat.repr a).data = (cfg.baseURI ++ Nat.repr b).data :=
    congrArg String.data h1
  simp only [String.data_append] at h2
  exact Nat_repr_injective (String.ext (List.append_cancel_left h2))

/-! Association-list lemmas for the `URI_dict` model. -/

theorem lookup_append_of_some {d l : RenameMap} {k : String} {v : Node}
    (h : List.lookup k d = some v) : List.lookup k (d ++ l) = some v := by
  induction d with
  | nil => simp [List.lookup] at h
  | cons q d ih =>
    rw [List.cons_append]
    simp only [List.lookup] at h ⊢
    cases hq : (k == q.1) with
    | true => simpa [hq] using h
    | false =>
      simp only [hq] at h ⊢
      exact ih h

theorem lookup_append_of_none {d l : RenameMap} {k : String}
    (h : List.lookup k d = none) : List.lookup k (d ++ l) = List.lookup k l := by
  induction d with
  | nil => simp
  | cons q d ih =>
    rw [List.cons_append]
    simp only [List.lookup] at h ⊢
    cases hq : (k == q.1) with
    | true => simp [hq] at h
    | false =>
      simp only [hq] at h ⊢
      exact ih h

theorem lookup_append_fresh {d : RenameMap} {k : String} (v : Node)
    (h : List.lookup k d = none) : List.lookup k (d ++ [(k, v)]) = some v := by
  rw [lookup_append_of_none h]
  simp [List.lookup]

theorem lookup_append_isSome {d : RenameMap} {k k0 : String} {v : Node} :
    (List.lookup k (d ++ [(k0, v)])).isSome = true ↔
      (List.lookup k d).isSome = true ∨ k = k0 := by
  cases hd : List.lookup k d with
  | some w => simp [lookup_append_of_some hd, hd]
  | none =>
    rw [lookup_append_of_none hd]
    simp only [hd, List.lookup]
    cases hk : (k == k0) with
    | true => simp [beq_iff_eq] at hk; simp [hk]
    | false =>
      have : ¬ k = k0 := by simpa [beq_iff_eq] using hk
      simp [this]

theorem mem_of_lookup_eq_some {d : RenameMap} {k : String} {v : Node}
    (h : List.lookup k d = some v) : (k, v) ∈ d := by
  induction d with
  | nil => simp [List.lookup] at h
  | cons q d ih =>
    simp only [List.lookup] at h
    cases hq : (k == q.1) with
    | true =>
      simp only [hq] at h
      have hk : k = q.1 := by simpa [beq_iff_eq] using hq
      have hv : v = q.2 := by injection h with h'; exact h'.symm
      rw [hk, hv]
      exact List.mem_cons_self q d
    | false =>
      simp only [hq] at h
      exact List.mem_cons_of_mem _ (ih h)

theorem dictSet_fresh {d : RenameMap} {k : String} (v : Node)
    (h : List.lookup k d = none) : dictSet d k v = d ++ [(k, v)] := by
  simp [dictSet, h]

/-! Inversion and persistence lemmas for the loop body. -/

theorem conceptCheck_true {cfg : Config} {g : Finset Triple} {d : RenameMap} {x : Node}
    (h : conceptCheck cfg g d x = true) :
    pyIn cfg.baseURI x.pyStr = true ∧ List.lookup x.pyStr d = none ∧
      Triple.mk (Node.uri x.pyStr) rdfType skosConcept ∈ g := by
  simp only [conceptCheck, Bool.and_eq_true, Bool.not_eq_true', decide_eq_true_eq] at h
  refine ⟨h.1.1, ?_, h.2⟩
  cases hl : List.lookup x.pyStr d with
  | none => rfl
  | some w => rw [hl] at h; simp at h

theorem conceptCheck_of_parts {cfg : Config} {g : Finset Triple} {d : RenameMap} {x : Node}
    (h1 : pyIn cfg.baseURI x.pyStr = true) (h2 : List.lookup x.pyStr d = none)
    (h3 : Triple.mk (Node.uri x.pyStr) rdfType skosConcept ∈ g) :
    conceptCheck cfg g d x = true := by
  simp [conceptCheck, h1, h2, h3]

theorem assign_inv {cfg : Config} {g : Finset Triple} {x : Node}
    {d : RenameMap} {c : Nat} {d' : RenameMap} {c' : Nat}
    (h : assignIfConcept cfg g x (d, c) = some (d', c')) :
    (conceptCheck cfg g d x = false ∧ d' = d ∧ c' = c) ∨
    (conceptCheck cfg g d x = true ∧ List.lookup x.pyStr d = none ∧ c < cfg.hi ∧
      d' = d ++ [(x.pyStr, mint cfg c)] ∧ c' = c + 1) := by
  by_cases hc : conceptCheck cfg g d x = true
  · right
    have hnone := (conceptCheck_true hc).2.1
    simp only [assignIfConcept, hc, if_true, allocNext] at h
    by_cases hlt : c < cfg.hi
    · simp only [hlt, if_true] at h
      injection h with h'
      have h1 : dictSet d x.pyStr (mint cfg c) = d' := congrArg Prod.fst h'
      have h2 : c + 1 = c' := congrArg Prod.snd h'
      rw [dictSet_fresh _ hnone] at h1
      exact ⟨hc, hnone, hlt, h1.symm, h2.symm⟩
    · simp [hlt] at h
  · left
    have hc' : conceptCheck cfg g d x = false := by
      cases hcc : conceptCheck cfg g d x with
      | true => exact absurd hcc hc
      | false => rfl
    simp only [assignIfConcept, hc', Bool.false_eq_true, if_false] at h
    injection h with h'
    exact ⟨hc', (congrArg Prod.fst h').symm, (congrArg Prod.snd h').symm⟩

theorem assign_lookup_persists {cfg : Config} {g : Finset Triple} {x : Node}
    {d : RenameMap} {c : Nat} {d' : RenameMap} {c' : Nat} {k : String} {v : Node}
    (h : assignIfConcept cfg g x (d, c) = some (d', c'))
    (hk : List.lookup k d = some v) : List.lookup k d' = some v := by
  rcases assign_inv h with ⟨_, hd, _⟩ | ⟨_, _, _, hd, _⟩
  · rw [hd]; exact hk
  · rw [hd]; exact lookup_append_of_some hk

theorem assign_lookup_isSome {cfg : Config} {g : Finset Triple} {x : Node}
    {d : RenameMap} {c : Nat} {d' : RenameMap} {c' : Nat}
    (h : assignIfConcept cfg g x (d, c) = some (d', c')) (k : String) :
    (List.lookup k d').isSome = true ↔
      ((List.lookup k d).isSome = true ∨
        (k = x.pyStr ∧ pyIn cfg.baseURI k = true ∧
          Triple.mk (Node.uri k) rdfType skosConcept ∈ g)) := by
  rcases assign_inv h with ⟨hc, hd, _⟩ | ⟨hc, hnone, _, hd, _⟩
  · rw [hd]
    constructor
    · exact fun hs => Or.inl hs
    · rintro (hs | ⟨hk, hpy, hmem⟩)
      · exact hs
      · subst hk
        have hm : decide (Triple.mk (Node.uri x.pyStr) rdfType skosConcept ∈ g) = true := by
          simpa using hmem
        simp only [conceptCheck, hpy, hm, Bool.true_and, Bool.and_true] at hc
        simpa using hc
  · obtain ⟨hpy, _, hmem⟩ := conceptCheck_true hc
    rw [hd, lookup_append_isSome]
    constructor
    · rintro (hs | hk)
      · exact Or.inl hs
      · subst hk; exact Or.inr ⟨rfl, hpy, hmem⟩
    · rintro (hs | ⟨hk, _, _⟩)
      · exact Or.inl hs
      · exact Or.inr hk

theorem processTriple_inv {cfg : Config} {t : Triple} {st st' : St}
    (h : processTriple cfg t st = some st') :
    ∃ d1 c1 d2 c2,
      assignIfConcept cfg st.g t.s (st.dict, st.ctr) = some (d1, c1) ∧
      assignIfConcept cfg st.g t.o (d1, c1) = some (d2, c2) ∧
      st' = { g := insert (emit d2 t) (st.g.erase t), dict := d2, ctr := c2,
              emitted := st.emitted ++ [emit d2 t] } := by
  unfold processTriple at h
  split at h
  · exact Option.noConfusion h
  · rename_i dc1 h1
    split at h
    · exact Option.noConfusion h
    · rename_i dc2 h2
      injection h with h'
      exact ⟨dc1.1, dc1.2, dc2.1, dc2.2, h1, h2, h'.symm⟩

theorem processTriple_lookup_persists {cfg : Config} {t : Triple} {st st' : St}
    {k : String} {v : Node} (h : processTriple cfg t st = some st')
    (hk : List.lookup k st.dict = some v) : List.lookup k st'.dict = some v := by
  obtain ⟨d1, c1, d2, c2, h1, h2, hst⟩ := processTriple_inv h
  rw [hst]
  exact assign_lookup_persists h2 (assign_lookup_persists h1 hk)

theorem processAll_lookup_persists {cfg : Config} :
    ∀ {ts : List Triple} {st st' : St} {k : String} {v : Node},
      processAll cfg ts st = some st' → List.lookup k st.dict = some v →
      List.lookup k st'.dict = some v := by
  intro ts
  induction ts with
  | nil =>
    intro st st' k v h hk
    simp only [processAll] at h
    injection h with h'
    rw [← h']; exact hk
  | cons t ts ih =>
    intro st st' k v h hk
    simp only [processAll] at h
    cases h1 : processTriple cfg t st with
    | none => rw [h1] at h; exact Option.noConfusion h
    | some st1 =>
      rw [h1] at h
      exact ih h (processTriple_lookup_persists h1 hk)

theorem processAll_cons_inv {cfg : Config} {t : Triple} {ts : List Triple} {st st' : St}
    (h : processAll cfg (t :: ts) st = some st') :
    ∃ st1, processTriple cfg t st = some st1 ∧ processAll cfg ts st1 = some st' := by
  simp only [processAll] at h
  split at h
  · exact Option.noConfusion h
  · rename_i st1 h1
    exact ⟨st1, h1, h⟩

/-- Every step of the loop emits exactly one triple, computed by substituting
through a dictionary all of whose bindings survive to the end of the run. -/
theorem processAll_emit {cfg : Config} :
    ∀ {ts : List Triple} {st st' : St}, processAll cfg ts st = some st' →
      ∃ out, st'.emitted = st.emitted ++ out ∧
        List.Forall₂ (fun t e =>
          ∃ d, (∀ k v, List.lookup k d = some v → List.lookup k st'.dict = some v) ∧
            e = emit d t) ts out := by
  intro ts
  induction ts with
  | nil =>
    intro st st' h
    simp only [processAll] at h
    injection h with h'
    subst h'
    exact ⟨[], by simp, List.Forall₂.nil⟩
  | cons t ts ih =>
    intro st st' h
    obtain ⟨st1, h1, h2⟩ := processAll_cons_inv h
    obtain ⟨d1, c1, d2, c2, ha1, ha2, hst1⟩ := processTriple_inv h1
    obtain ⟨out, hem, hfa⟩ := ih h2
    refine ⟨emit d2 t :: out, ?_, ?_⟩
    · rw [hem, hst1]
      simp
    · refine List.Forall₂.cons ⟨d2, ?_, rfl⟩ hfa
      intro k v hk
      have : List.lookup k st1.dict = some v := by rw [hst1]; exact hk
      exact processAll_lookup_persists h2 this

/-- After the full loop, every triple still in the store is one of the
emitted triples: originals are all removed, and only `graph.add` calls put
triples back. -/
theorem processAll_g_subset {cfg : Config} :
    ∀ {ts : List Triple} {st st' : St}, processAll cfg ts st = some st' →
      ∀ x ∈ st'.g, x ∈ st'.emitted ∨ (x ∈ st.g ∧ x ∉ ts) := by
  intro ts
  induction ts with
  | nil =>
    intro st st' h x hx
    simp only [processAll] at h
    injection h with h'
    subst h'
    exact Or.inr ⟨hx, by simp⟩
  | cons t ts ih =>
    intro st st' h x hx
    obtain ⟨st1, h1, h2⟩ := processAll_cons_inv h
    obtain ⟨d1, c1, d2, c2, ha1, ha2, hst1⟩ := processTriple_inv h1
    rcases ih h2 x hx with hemit | ⟨hg1, hnotin⟩
    · exact Or.inl hemit
    · rw [hst1] at hg1
      simp only [Finset.mem_insert] at hg1
      rcases hg1 with hxe | hxg
    -- the triple is the one this step emitted: it is in the final trace
      · left
        have hmem1 : x ∈ st1.emitted := by
          rw [hst1, hxe]
          simp
        obtain ⟨out, hem, _⟩ := processAll_emit h2
        rw [hem]
        exact List.mem_append.mpr (Or.inl hmem1)
      · have := Finset.mem_erase.mp hxg
        exact Or.inr ⟨this.2, by
          intro hmem
          rcases List.mem_cons.mp hmem with heq | htail
          · exact this.1 heq
          · exact hnotin htail⟩

/-- Core forward-reference lemma: if the type-assertion triple for string `c`
is among the still-unprocessed triples (or `c` is already bound), then the
run binds `c`, and every emitted triple substitutes the identical value for
every subject/object whose string form is `c`.  The graph hypothesis states
that unprocessed originals are still in the store, which makes the live
`(URIRef(c), RDF.type, SKOS.Concept) in graph` test succeed at first
sighting. -/
theorem processAll_concept_resolved {cfg : Config} {c : String}
    (hpy : pyIn cfg.baseURI c = true) :
    ∀ {ts : List Triple} {st st' : St}, ts.Nodup →
      (∀ t ∈ ts, t ∈ st.g) →
      ((List.lookup c st.dict).isSome = true ∨
        Triple.mk (Node.uri c) rdfType skosConcept ∈ ts) →
      processAll cfg ts st = some st' →
      ∃ out v, st'.emitted = st.emitted ++ out ∧ List.lookup c st'.dict = some v ∧
        List.Forall₂ (fun t e =>
          (t.s.pyStr = c → e.s = v) ∧ (t.o.pyStr = c → e.o = v)) ts out := by
  intro ts
  induction ts with
  | nil =>
    intro st st' hnd hg hc h
    simp only [processAll] at h
    injection h with h'
    subst h'
    rcases hc with hc | hc
    · obtain ⟨v, hv⟩ := Option.isSome_iff_exists.mp hc
      exact ⟨[], v, by simp, hv, List.Forall₂.nil⟩
    · simp at hc
  | cons t ts ih =>
    intro st st' hnd hg hc h
    obtain ⟨st1, h1, h2⟩ := processAll_cons_inv h
    obtain ⟨d1, c1, d2, c2, ha1, ha2, hst1⟩ := processTriple_inv h1
    have hdict1 : st1.dict = d2 := by rw [hst1]
    have hem1 : st1.emitted = st.emitted ++ [emit d2 t] := by rw [hst1]
    have hnotmem : t ∉ ts := (List.nodup_cons.mp hnd).1
    have hnd' : ts.Nodup := (List.nodup_cons.mp hnd).2
    have hg' : ∀ u ∈ ts, u ∈ st1.g := by
      intro u hu
      rw [hst1]
      exact Finset.mem_insert_of_mem
        (Finset.mem_erase.mpr ⟨fun he => hnotmem (he ▸ hu), hg u (List.mem_cons_of_mem t hu)⟩)
    have hsubj : t.s.pyStr = c → (List.lookup c d1).isSome = true := by
      intro hsc
      cases hl : List.lookup c st.dict with
      | some w => simp [assign_lookup_persists ha1 hl]
      | none =>
        have hmem : Triple.mk (Node.uri c) rdfType skosConcept ∈ st.g := by
          rcases hc with hcl | hcr
          · rw [hl] at hcl; simp at hcl
          · exact hg _ hcr
        have hcheck : conceptCheck cfg st.g st.dict t.s = true := by
          apply conceptCheck_of_parts
          · rw [hsc]; exact hpy
          · rw [hsc]; exact hl
          · rw [hsc]; exact hmem
        rcases assign_inv ha1 with ⟨hcf, _, _⟩ | ⟨_, _, _, hd, _⟩
        · rw [hcheck] at hcf; exact Bool.noConfusion hcf
        · rw [hsc] at hd
          rw [hd, lookup_append_fresh _ hl]
          rfl
    have hobj : t.o.pyStr = c → (List.lookup c d2).isSome = true := by
      intro hoc
      cases hl : List.lookup c d1 with
      | some w => simp [assign_lookup_persists ha2 hl]
      | none =>
        have hmem : Triple.mk (Node.uri c) rdfType skosConcept ∈ st.g := by
          rcases hc with hcl | hcr
          · obtain ⟨w, hw⟩ := Option.isSome_iff_exists.mp hcl
            have := assign_lookup_persists ha1 hw
            rw [hl] at this
            exact Option.noConfusion this
          · exact hg _ hcr
        have hcheck : conceptCheck cfg st.g d1 t.o = true := by
          apply conceptCheck_of_parts
          · rw [hoc]; exact hpy
          · rw [hoc]; exact hl
          · rw [hoc]; exact hmem
        rcases assign_inv ha2 with ⟨hcf, _, _⟩ | ⟨_, _, _, hd, _⟩
        · rw [hcheck] at hcf; exact Bool.noConfusion hcf
        · rw [hoc] at hd
          rw [hd, lookup_append_fresh _ hl]
          rfl
    have hkey : (t.s.pyStr = c ∨ t.o.pyStr = c) → (List.lookup c d2).isSome = true := by
      rintro (hsc | hoc)
      · obtain ⟨w, hw⟩ := Option.isSome_iff_exists.mp (hsubj hsc)
        simp [assign_lookup_persists ha2 hw]
      · exact hobj hoc
    have hc1 : (List.lookup c st1.dict).isSome = true ∨
        Triple.mk (Node.uri c) rdfType skosConcept ∈ ts := by
      rcases hc with hcl | hcr
      · obtain ⟨w, hw⟩ := Option.isSome_iff_exists.mp hcl
        left
        rw [hdict1]
        simp [assign_lookup_persists ha2 (assign_lookup_persists ha1 hw)]
      · rcases List.mem_cons.mp hcr with heq | htail
        · left
          have hsc : t.s.pyStr = c := by rw [← heq]; rfl
          obtain ⟨w, hw⟩ := Option.isSome_iff_exists.mp (hsubj hsc)
          rw [hdict1]
          simp [assign_lookup_persists ha2 hw]
        · right; exact htail
    obtain ⟨out, v, hem, hlv, hfa⟩ := ih hnd' hg' hc1 h2
    have hval : ∀ w, List.lookup c d2 = some w → w = v := by
      intro w hw
      have hfin : List.lookup c st'.dict = some w :=
        processAll_lookup_persists h2 (by rw [hdict1]; exact hw)
      rw [hfin] at hlv
      injection hlv
    have hR : (t.s.pyStr = c → (emit d2 t).s = v) ∧ (t.o.pyStr = c → (emit d2 t).o = v) := by
      constructor
      · intro hsc
        obtain ⟨w, hw⟩ := Option.isSome_iff_exists.mp (hkey (Or.inl hsc))
        show dictGet d2 t.s.pyStr t.s = v
        rw [dictGet, hsc, hw, Option.getD_some, hval w hw]
      · intro hoc
        obtain ⟨w, hw⟩ := Option.isSome_iff_exists.mp (hkey (Or.inr hoc))
        show dictGet d2 t.o.pyStr t.o = v
        rw [dictGet, hoc, hw, Option.getD_some, hval w hw]
    refine ⟨emit d2 t :: out, v, ?_, hlv, List.Forall₂.cons hR hfa⟩
    rw [hem, hem1]
    simp

/-! Allocator bookkeeping invariants: the iterator state counts the
dictionary entries, never passes `hi`, and every stored value is a freshly
minted URI with a strictly smaller identifier than the iterator state. -/

theorem assign_len_inv {cfg : Config} {g : Finset Triple} {x : Node}
    {d : RenameMap} {c : Nat} {d' : RenameMap} {c' : Nat}
    (h : assignIfConcept cfg g x (d, c) = some (d', c'))
    (hlen : c = cfg.lo + d.length) (hle : d.length ≤ cfg.hi - cfg.lo) :
    c' = cfg.lo + d'.length ∧ d'.length ≤ cfg.hi - cfg.lo := by
  rcases assign_inv h with ⟨_, hd, hc'⟩ | ⟨_, _, hlt, hd, hc'⟩
  · subst hd; subst hc'; exact ⟨hlen, hle⟩
  · subst hd; subst hc'
    simp only [List.length_append, List.length_cons, List.length_nil]
    omega

theorem processTriple_len_inv {cfg : Config} {t : Triple} {st st' : St}
    (h : processTriple cfg t st = some st')
    (hlen : st.ctr = cfg.lo + st.dict.length) (hle : st.dict.length ≤ cfg.hi - cfg.lo) :
    st'.ctr = cfg.lo + st'.dict.length ∧ st'.dict.length ≤ cfg.hi - cfg.lo := by
  obtain ⟨d1, c1, d2, c2, ha1, ha2, hst⟩ := processTriple_inv h
  obtain ⟨hl1, he1⟩ := assign_len_inv ha1 hlen hle
  obtain ⟨hl2, he2⟩ := assign_len_inv ha2 hl1 he1
  rw [hst]
  exact ⟨hl2, he2⟩

theorem processAll_len_inv {cfg : Config} :
    ∀ {ts : List Triple} {st st' : St}, processAll cfg ts st = some st' →
      st.ctr = cfg.lo + st.dict.length → st.dict.length ≤ cfg.hi - cfg.lo →
      st'.ctr = cfg.lo + st'.dict.length ∧ st'.dict.length ≤ cfg.hi - cfg.lo := by
  intro ts
  induction ts with
  | nil =>
    intro st st' h hlen hle
    simp only [processAll] at h
    injection h with h'
    subst h'
    exact ⟨hlen, hle⟩
  | cons t ts ih =>
    intro st st' h hlen hle
    obtain ⟨st1, h1, h2⟩ := processAll_cons_inv h
    obtain ⟨hl1, he1⟩ := processTriple_len_inv h1 hlen hle
    exact ih h2 hl1 he1

theorem assign_val_inv {cfg : Config} {g : Finset Triple} {x : Node}
    {d : RenameMap} {c : Nat} {d' : RenameMap} {c' : Nat}
    (h : assignIfConcept cfg g x (d, c) = some (d', c'))
    (hv : ∀ q ∈ d, ∃ n, n < c ∧ q.2 = mint cfg n)
    (hp : List.Pairwise (fun q r : String × Node => q.2 ≠ r.2) d) :
    (∀ q ∈ d', ∃ n, n < c' ∧ q.2 = mint cfg n) ∧
      List.Pairwise (fun q r : String × Node => q.2 ≠ r.2) d' := by
  rcases assign_inv h with ⟨_, hd, hc'⟩ | ⟨_, _, _, hd, hc'⟩
  · subst hd; subst hc'; exact ⟨hv, hp⟩
  · subst hd; subst hc'
    constructor
    · intro q hq
      rcases List.mem_append.mp hq with hq | hq
      · obtain ⟨n, hn, hqv⟩ := hv q hq
        exact ⟨n, by omega, hqv⟩
      · rcases List.mem_singleton.mp hq with rfl
        exact ⟨c, by omega, rfl⟩
    · rw [List.pairwise_append]
      refine ⟨hp, List.pairwise_singleton _ _, ?_⟩
      intro a ha b hb
      rcases List.mem_singleton.mp hb with rfl
      obtain ⟨n, hn, hav⟩ := hv a ha
      simp only
      rw [hav]
      intro hcontra
      exact absurd (mint_injective cfg hcontra) (by omega)

theorem processAll_val_inv {cfg : Config} :
    ∀ {ts : List Triple} {st st' : St}, processAll cfg ts st = some st' →
      (∀ q ∈ st.dict, ∃ n, n < st.ctr ∧ q.2 = mint cfg n) →
      List.Pairwise (fun q r : String × Node => q.2 ≠ r.2) st.dict →
      (∀ q ∈ st'.dict, ∃ n, n < st'.ctr ∧ q.2 = mint cfg n) ∧
        List.Pairwise (fun q r : String × Node => q.2 ≠ r.2) st'.dict := by
  intro ts
  induction ts with
  | nil =>
    intro st st' h hv hp
    simp only [processAll] at h
    injection h with h'
    subst h'
    exact ⟨hv, hp⟩
  | cons t ts ih =>
    intro st st' h hv hp
    obtain ⟨st1, h1, h2⟩ := processAll_cons_inv h
    obtain ⟨d1, c1, d2, c2, ha1, ha2, hst⟩ := processTriple_inv h1
    obtain ⟨hv1, hp1⟩ := assign_val_inv ha1 hv hp
    obtain ⟨hv2, hp2⟩ := assign_val_inv ha2 hv1 hp1
    refine ih h2 ?_ ?_
    · rw [hst]; exact hv2
    · rw [hst]; exact hp2

theorem mem_conceptKeys {cfg : Config} {ts : List Triple} {c : String}
    (h : c ∈ conceptKeys cfg ts) :
    pyIn cfg.baseURI c = true ∧ Triple.mk (Node.uri c) rdfType skosConcept ∈ ts := by
  simp only [conceptKeys, List.mem_toFinset, List.mem_filterMap] at h
  obtain ⟨t, ht, hft⟩ := h
  cases t with
  | mk n1 n2 n3 =>
    cases n1 with
    | uri c0 =>
      simp only at hft
      split at hft
      · rename_i hcond
        injection hft with hcc
        subst hcc
        obtain ⟨hp, ho, hpy⟩ := hcond
        subst hp; subst ho
        exact ⟨hpy, ht⟩
      · exact Option.noConfusion hft
    | lit c0 => simp at hft
    | bnode c0 => simp at hft

/-! Claim theorems. -/

/-- C9: each original concept URI is assigned at most once per run: once a
key is inserted into `URI_dict` it is never removed or reassigned — every
binding present at any point of the loop survives, unchanged, to the end of
any further processing (allocation is guarded by the
`str(term) not in URI_dict.keys()` membership check). -/
theorem rename_map_single_assignment {cfg : Config} {ts : List Triple} {st st' : St}
    (h : processAll cfg ts st = some st') :
    ∀ k v, List.lookup k st.dict = some v → List.lookup k st'.dict = some v := by
  intro k v hk
  exact processAll_lookup_persists h hk

/-- C3: one loop iteration adds a string `k` to `URI_dict` exactly when `k`
is the string form of the triple's subject or object, `k` contains the base
namespace, and the triple store, in its state at the time the check is made,
contains the triple `(URIRef(k), RDF.type, SKOS.Concept)`; in particular a
URI under the base namespace lacking the type assertion is never renumbered
by that iteration. -/
theorem renumbered_iff_base_and_type_assertion {cfg : Config} {t : Triple} {st st' : St}
    (h : processTriple cfg t st = some st') (k : String) :
    (List.lookup k st'.dict).isSome = true ↔
      ((List.lookup k st.dict).isSome = true ∨
        ((k = t.s.pyStr ∨ k = t.o.pyStr) ∧ pyIn cfg.baseURI k = true ∧
          Triple.mk (Node.uri k) rdfType skosConcept ∈ st.g)) := by
  obtain ⟨d1, c1, d2, c2, ha1, ha2, hst⟩ := processTriple_inv h
  have hdict : st'.dict = d2 := by rw [hst]
  rw [hdict, assign_lookup_isSome ha2 k, assign_lookup_isSome ha1 k]
  tauto

/-- C2: if an eligible concept URI occurs in object position before the
triple asserting its own `rdf:type skos:Concept` is processed, then after
the full rewrite the Rename Map binds the concept to a single new URI and
every occurrence of the original URI, in subject or object position of any
input triple, is substituted by that identical new URI in the corresponding
emitted triple. -/
theorem forward_reference_correct {cfg : Config} {ts : List Triple} {st : St} {c : String}
    {i j : Nat} (hi2 : i < ts.length) (hj : j < ts.length) (hij : i < j)
    (hnd : ts.Nodup) (hpy : pyIn cfg.baseURI c = true)
    (htype : ts.get ⟨j, hj⟩ = Triple.mk (Node.uri c) rdfType skosConcept)
    (hocc : (ts.get ⟨i, hi2⟩).o = Node.uri c)
    (hrun : processAll cfg ts (initSt cfg ts) = some st) :
    ∃ v, List.lookup c st.dict = some v ∧
      List.Forall₂ (fun t e => (t.s = Node.uri c → e.s = v) ∧ (t.o = Node.uri c → e.o = v))
        ts st.emitted := by
  have htt : Triple.mk (Node.uri c) rdfType skosConcept ∈ ts := by
    rw [← htype]
    exact List.get_mem ts j hj
  have hg : ∀ t ∈ ts, t ∈ (initSt cfg ts).g := fun t ht => List.mem_toFinset.mpr ht
  obtain ⟨out, v, hem, hlv, hfa⟩ :=
    processAll_concept_resolved hpy hnd hg (Or.inr htt) hrun
  have hout : st.emitted = out := by simpa [initSt] using hem
  refine ⟨v, hlv, ?_⟩
  rw [hout]
  refine hfa.imp ?_
  intro t e hte
  exact ⟨fun hts => hte.1 (by rw [hts]; rfl), fun hto => hte.2 (by rw [hto]; rfl)⟩

/-- C7: a term whose string form never becomes a key of `URI_dict` passes
through the rewrite untouched: `URI_dict.get(str(term), term)` falls back to
the term itself, so every input triple having it as subject or object emits
it unchanged. -/
theorem unmapped_terms_pass_through {cfg : Config} {ts : List Triple} {st : St} (x : Node)
    (hrun : processAll cfg ts (initSt cfg ts) = some st)
    (hx : List.lookup x.pyStr st.dict = none) :
    List.Forall₂ (fun t e => (t.s = x → e.s = x) ∧ (t.o = x → e.o = x)) ts st.emitted := by
  obtain ⟨out, hem, hfa⟩ := processAll_emit hrun
  have hout : st.emitted = out := by simpa [initSt] using hem
  rw [hout]
  refine hfa.imp ?_
  rintro t e ⟨d, hpers, rfl⟩
  have hd : List.lookup x.pyStr d = none := by
    cases hl : List.lookup x.pyStr d with
    | none => rfl
    | some w =>
      have := hpers _ _ hl
      rw [hx] at this
      exact Option.noConfusion this
  constructor
  · intro hts
    show dictGet d t.s.pyStr t.s = x
    rw [hts, dictGet, hd]
    rfl
  · intro hto
    show dictGet d t.o.pyStr t.o = x
    rw [hto, dictGet, hd]
    rfl

/-- C6: when the input enumeration holds more distinct eligible concept URIs
than the configured identifier range has values, `next(id_iter)` raises
`StopIteration` during the loop: the run aborts and `convert` produces no
output graph (so no output file is written). -/
theorem allocator_exhaustion_aborts {cfg : Config} {ts : List Triple} (hnd : ts.Nodup)
    (hcard : cfg.hi - cfg.lo < (conceptKeys cfg ts).card) :
    processAll cfg ts (initSt cfg ts) = none ∧ convert cfg ts = none := by
  have hmain : processAll cfg ts (initSt cfg ts) = none := by
    cases hrun : processAll cfg ts (initSt cfg ts) with
    | none => rfl
    | some st =>
      exfalso
      have hsub : conceptKeys cfg ts ⊆ (st.dict.map Prod.fst).toFinset := by
        intro c hc
        obtain ⟨hpy, htt⟩ := mem_conceptKeys hc
        have hg : ∀ t ∈ ts, t ∈ (initSt cfg ts).g := fun t ht => List.mem_toFinset.mpr ht
        obtain ⟨out, v, _, hlv, _⟩ :=
          processAll_concept_resolved hpy hnd hg (Or.inr htt) hrun
        exact List.mem_toFinset.mpr (List.mem_map.mpr ⟨(c, v), mem_of_lookup_eq_some hlv, rfl⟩)
      have hlen := processAll_len_inv hrun (by simp [initSt]) (by simp [initSt])
      have hcard2 : (conceptKeys cfg ts).card ≤ st.dict.length := by
        calc (conceptKeys cfg ts).card
            ≤ (st.dict.map Prod.fst).toFinset.card := Finset.card_le_card hsub
          _ ≤ (st.dict.map Prod.fst).length := List.toFinset_card_le _
          _ = st.dict.length := List.length_map _ _
      omega
  exact ⟨hmain, by simp [convert, hmain]⟩

/-- C8: the Rename Map is injective at every reachable state: two distinct
keys are always bound to distinct values, because each stored value is the
base namespace concatenated with a distinct integer from the strictly
increasing allocator. -/
theorem rename_map_injective {cfg : Config} {ts : List Triple} {st : St}
    (hrun : processAll cfg ts (initSt cfg ts) = some st) :
    ∀ a b va vb, List.lookup a st.dict = some va → List.lookup b st.dict = some vb →
      a ≠ b → va ≠ vb := by
  intro a b va vb ha hb hab
  obtain ⟨hv, hp⟩ := processAll_val_inv hrun (by simp [initSt]) (by simp [initSt])
  have hma := mem_of_lookup_eq_some ha
  have hmb := mem_of_lookup_eq_some hb
  have hsym : Symmetric (fun q r : String × Node => q.2 ≠ r.2) :=
    fun q r hqr => Ne.symm hqr
  have hpair := List.Pairwise.forall hsym hp hma hmb
    (fun hcon => hab (congrArg Prod.fst hcon))
  exact hpair

/-- C5 (amended): the rewrite is a single pass: it emits exactly one triple
per input triple, substituting through the Rename Map as of that iteration,
and every triple of the final store is one of those emissions — there is no
second repair pass re-adding further triples. -/
theorem single_pass_emission {cfg : Config} {ts : List Triple} {st : St}
    (hrun : processAll cfg ts (initSt cfg ts) = some st) :
    st.emitted.length = ts.length ∧ ∀ e ∈ st.g, e ∈ st.emitted := by
  obtain ⟨out, hem, hfa⟩ := processAll_emit hrun
  have hout : st.emitted = out := by simpa [initSt] using hem
  constructor
  · rw [hout]
    exact (List.Forall₂.length_eq hfa).symm
  · intro e he
    rcases processAll_g_subset hrun e he with hemit | ⟨hg0, hnot⟩
    · exact hemit
    · exact absurd (List.mem_toFinset.mp (by simpa [initSt] using hg0)) hnot

/-- C4 (amended): the loop never rewrites a predicate, and a literal object
whose lexical form is not a key of the final Rename Map is emitted
unchanged (the string-keyed `URI_dict.get` substitution can only replace a
literal whose lexical form coincides with a mapped concept URI string). -/
theorem predicates_and_unmapped_literals_unchanged {cfg : Config} {ts : List Triple} {st : St}
    (hrun : processAll cfg ts (initSt cfg ts) = some st) :
    List.Forall₂ (fun t e => e.p = t.p ∧
      (∀ w, t.o = Node.lit w → List.lookup w st.dict = none → e.o = t.o)) ts st.emitted := by
  obtain ⟨out, hem, hfa⟩ := processAll_emit hrun
  have hout : st.emitted = out := by simpa [initSt] using hem
  rw [hout]
  refine hfa.imp ?_
  rintro t e ⟨d, hpers, rfl⟩
  refine ⟨rfl, ?_⟩
  intro w hw hnone
  have hd : List.lookup w d = none := by
    cases hl : List.lookup w d with
    | none => rfl
    | some v =>
      have := hpers _ _ hl
      rw [hnone] at this
      exact Option.noConfusion this
  show dictGet d t.o.pyStr t.o = t.o
  rw [hw]
  show dictGet d w (Node.lit w) = Node.lit w
  rw [dictGet, hd]
  rfl

/-- The tuple-shaped subject condition of the underscore variant decides
exactly the intended three-part condition: when the two boolean conjuncts
fail the tuple holds Python's `False`, which matches no triple of RDF
terms, and when they hold the tuple is the intended type-assertion triple. -/
theorem subjCheckU_eq_conceptCheck (cfg : Config) (g : Finset Triple) (d : RenameMap)
    (x : Node) : subjCheckU cfg g d x = conceptCheck cfg g d x := by
  unfold subjCheckU conceptCheck
  cases hab : (pyIn cfg.baseURI x.pyStr && !(List.lookup x.pyStr d).isSome) with
  | true => simp [hab]
  | false => simp [hab]

theorem processTripleU_eq_processTriple (cfg : Config) (t : Triple) (st : St) :
    processTripleU cfg t st = processTriple cfg t st := by
  unfold processTripleU processTriple
  rw [subjCheckU_eq_conceptCheck]
  rfl

/-- C10: the two converter scripts implement the same rewrite: run over the
same enumeration of the same input graph, the loops step through identical
states and the whole runs produce the same output graph (hence the same
rename mapping), the misplaced parenthesis in the underscore variant's
subject check notwithstanding. -/
theorem converter_variants_equivalent (cfg : Config) (ts : List Triple) :
    (∀ st, processAllU cfg ts st = processAll cfg ts st) ∧
      convertU cfg ts = convert cfg ts := by
  have hall : ∀ (us : List Triple) (st : St), processAllU cfg us st = processAll cfg us st := by
    intro us
    induction us with
    | nil => intro st; rfl
    | cons t us ih =>
      intro st
      unfold processAllU processAll
      rw [processTripleU_eq_processTriple]
      cases hp : processTriple cfg t st with
      | none => rfl
      | some st1 => exact ih st1
  refine ⟨hall ts, ?_⟩
  unfold convertU convert
  rw [hall ts (initSt cfg ts)]

/-! Concrete test fixtures: a small base namespace and identifier range
(the configuration is marked user-changeable in the source), `skos:broader`,
and a handful of small input enumerations. -/

def cfgW : Config := { baseURI := "b/", lo := 7, hi := 20 }

def broader : Node := Node.uri "http://www.w3.org/2004/02/skos/core#broader"

/-- The spec's example scenario: a concept referenced as an object before
its own type-assertion triple. -/
def tsW : List Triple :=
  [ Triple.mk (Node.uri "b/2") broader (Node.uri "b/1")
  , Triple.mk (Node.uri "b/1") rdfType skosConcept
  , Triple.mk (Node.uri "b/2") rdfType skosConcept ]

/-- The final state of the run on `tsW` (the run succeeds, so the fallback
of `Option.getD` is never taken and `processAll` returns `some stW` by
computation). -/
def stW : St := (processAll cfgW tsW (initSt cfgW tsW)).getD (initSt cfgW tsW)

/-- An input whose URI `b/7` collides with the first minted URI: the
eligible concept `b/c` is renamed to `b/7`, making two distinct input
triples rewrite to the same triple. -/
def tsC1 : List Triple :=
  [ Triple.mk (Node.uri "b/7") (Node.uri "q1") (Node.lit "x")
  , Triple.mk (Node.uri "b/c") rdfType skosConcept
  , Triple.mk (Node.uri "b/c") (Node.uri "q1") (Node.lit "x") ]

/-- An input with a literal object whose lexical form equals the concept
URI `b/c`. -/
def tsC4 : List Triple :=
  [ Triple.mk (Node.uri "b/c") rdfType skosConcept
  , Triple.mk (Node.uri "s") (Node.uri "q1") (Node.lit "b/c") ]

/-- An input where `b/7` becomes a Rename Map key only after the triple
using it as subject was already emitted: the rewritten type triple of
`b/c` makes `b/7` look like a typed concept afterwards. -/
def tsC5 : List Triple :=
  [ Triple.mk (Node.uri "b/7") (Node.uri "q1") (Node.lit "x")
  , Triple.mk (Node.uri "b/c") rdfType skosConcept
  , Triple.mk (Node.uri "b/7") (Node.uri "q2") (Node.lit "x") ]

/-- The final state of the run on `tsC5`. -/
def stC5 : St := (processAll cfgW tsC5 (initSt cfgW tsC5)).getD (initSt cfgW tsC5)

/-- A single type-assertion triple, processed from a mid-run state. -/
def tC9 : Triple := Triple.mk (Node.uri "b/a") rdfType skosConcept

def tsC9 : List Triple := [tC9]

/-- A mid-run state with one binding already present. -/
def stC9start : St :=
  { g := {tC9}, dict := [("b/z", Node.uri "b/9")], ctr := 10, emitted := [] }

/-- The state after processing `tC9` from `stC9start`. -/
def stC9fin : St := (processTriple cfgW tC9 stC9start).getD stC9start

/-- A two-concept input for a one-identifier range. -/
def cfgE : Config := { baseURI := "b/", lo := 7, hi := 8 }

def tsE : List Triple :=
  [ Triple.mk (Node.uri "b/a") rdfType skosConcept
  , Triple.mk (Node.uri "b/b") rdfType skosConcept ]

/-- C1: on `tsC1` the rewrite maps two distinct input triples to the same
triple, so the set-based store shrinks from 3 triples to 2: the loop
completes, the script's own `assert(len(graph) == old_g_length)` fails, and
the run aborts with no output.  The code violates its own asserted
triple-count invariant (the claim's universal count preservation). -/
theorem collision_drops_triple_and_aborts :
    (processAll cfgW tsC1 (initSt cfgW tsC1)).map (fun st => st.g.card) = some 2 ∧
      tsC1.toFinset.card = 3 ∧ convert cfgW tsC1 = none := by
  refine ⟨by decide, by decide, by decide⟩

/-- C4 counterexample: on `tsC4` the literal object `"b/c"` is replaced by
the minted URI `b/7` (the output holds the rewritten triple and no longer
holds the original), refuting "every literal object appears unchanged in
the rewritten triple". -/
theorem literal_object_rewritten_cex :
    (processAll cfgW tsC4 (initSt cfgW tsC4)).map
      (fun st =>
        (decide (Triple.mk (Node.uri "s") (Node.uri "q1") (Node.uri "b/7") ∈ st.g),
         decide (Triple.mk (Node.uri "s") (Node.uri "q1") (Node.lit "b/c") ∈ st.g)))
      = some (true, false) := by
  decide

/-- C5 counterexample: on `tsC5` the key `b/7` is added to the Rename Map
after the triple `(b/7, q1, "x")` was first emitted, yet the final store
still holds that stale triple and not its substituted form `(b/8, q1, "x")`
— no second pass removes and re-adds forward-referenced triples. -/
theorem no_second_pass_repair_cex :
    (processAll cfgW tsC5 (initSt cfgW tsC5)).map
      (fun st =>
        (List.lookup "b/7" st.dict,
         decide (Triple.mk (Node.uri "b/7") (Node.uri "q1") (Node.lit "x") ∈ st.g),
         decide (Triple.mk (Node.uri "b/8") (Node.uri "q1") (Node.lit "x") ∈ st.g)))
      = some (some (Node.uri "b/8"), true, false) := by
  decide

/-! Witnesses: each theorem with hypotheses applied at a concrete input. -/

/-- Witness for C2 on the spec's example scenario: `b/1` is referenced as an
object (index 0) before its type assertion (index 1). -/
theorem forward_reference_correct_witness :
    ∃ v, List.lookup "b/1" stW.dict = some v ∧
      List.Forall₂ (fun t e => (t.s = Node.uri "b/1" → e.s = v) ∧
        (t.o = Node.uri "b/1" → e.o = v)) tsW stW.emitted :=
  @forward_reference_correct cfgW tsW stW "b/1" 0 1 (by decide) (by decide) (by decide)
    (by decide) (by decide) (by decide) (by decide) rfl

/-- Witness for C3: processing the type-assertion triple `tC9` renumbers
exactly its subject string. -/
theorem renumbered_iff_base_and_type_assertion_witness :
    (List.lookup "b/a" stC9fin.dict).isSome = true ↔
      ((List.lookup "b/a" stC9start.dict).isSome = true ∨
        (("b/a" = tC9.s.pyStr ∨ "b/a" = tC9.o.pyStr) ∧ pyIn cfgW.baseURI "b/a" = true ∧
          Triple.mk (Node.uri "b/a") rdfType skosConcept ∈ stC9start.g)) :=
  @renumbered_iff_base_and_type_assertion cfgW tC9 stC9start stC9fin rfl "b/a"

/-- Witness for the amended C4 on the run over `tsC5`, whose literal objects
`"x"` are not Rename Map keys. -/
theorem predicates_and_unmapped_literals_unchanged_witness :
    List.Forall₂ (fun t e => e.p = t.p ∧
      (∀ w, t.o = Node.lit w → List.lookup w stC5.dict = none → e.o = t.o))
      tsC5 stC5.emitted :=
  @predicates_and_unmapped_literals_unchanged cfgW tsC5 stC5 rfl

/-- Witness for the amended C5: the first emitted triple of the `tsW` run is
in the final store's emission trace. -/
theorem single_pass_emission_witness :
    Triple.mk (Node.uri "b/7") broader (Node.uri "b/8") ∈ stW.emitted :=
  (@single_pass_emission cfgW tsW stW rfl).2
    (Triple.mk (Node.uri "b/7") broader (Node.uri "b/8")) (by decide)

/-- Witness for C6: two concepts, a one-identifier range: the run aborts and
produces no output. -/
theorem allocator_exhaustion_aborts_witness :
    processAll cfgE tsE (initSt cfgE tsE) = none ∧ convert cfgE tsE = none :=
  @allocator_exhaustion_aborts cfgE tsE (by decide) (by decide)

/-- Witness for C7: `skos:Concept` itself is never a Rename Map key on the
`tsW` run, so it passes through unchanged wherever it occurs. -/
theorem unmapped_terms_pass_through_witness :
    List.Forall₂ (fun t e => (t.s = skosConcept → e.s = skosConcept) ∧
      (t.o = skosConcept → e.o = skosConcept)) tsW stW.emitted :=
  @unmapped_terms_pass_through cfgW tsW stW skosConcept rfl (by decide)

/-- Witness for C8: the two keys of the `tsW` run resolve to distinct minted
URIs. -/
theorem rename_map_injective_witness : Node.uri "b/7" ≠ Node.uri "b/8" :=
  @rename_map_injective cfgW tsW stW rfl "b/2" "b/1" (Node.uri "b/7")
    (Node.uri "b/8") (by decide) (by decide) (by decide)

/-- Witness for C9: the pre-existing binding of `"b/z"` survives processing
`tC9` unchanged. -/
theorem rename_map_single_assignment_witness :
    List.lookup "b/z" stC9fin.dict = some (Node.uri "b/9") :=
  @rename_map_single_assignment cfgW tsC9 stC9start stC9fin rfl "b/z"
    (Node.uri "b/9") (by decide)
